import Mathlib

/-!
Shallow embedding of `src/preprocess.py`, a single-file text-preprocessing
pipeline (loader, cleaner, vocabulary builder, rewriter, orchestrator).

Strings are modelled as lists of Unicode codepoints (`List Nat`): Python's
`str` is a sequence of codepoints, and all character classes the program
uses (`string.punctuation`, `string.printable`, whitespace, case) are
codepoint ranges.  `pyStr` converts a Lean string literal to this model so
that concrete examples stay readable.
-/

/-- A Python string: its list of Unicode codepoints. -/
abbrev PyStr := List Nat

/-- Codepoints of a Lean string literal, for writing concrete inputs. -/
def pyStr (s : String) : PyStr := s.toList.map Char.toNat

/-- ASCII whitespace recognised by Python's `str.split()` / `str.strip()`
(space, tab, newline, vertical tab, form feed, carriage return). -/
def isPySpace (n : Nat) : Bool :=
  n == 32 || n == 9 || n == 10 || n == 11 || n == 12 || n == 13

/-- Membership in Python's `string.punctuation`
(the 32 ASCII punctuation characters, codepoints 33-47, 58-64, 91-96, 123-126). -/
def isPunct (n : Nat) : Bool :=
  (33 ≤ n && n ≤ 47) || (58 ≤ n && n ≤ 64) || (91 ≤ n && n ≤ 96) || (123 ≤ n && n ≤ 126)

/-- Membership in Python's `string.printable`
(digits, letters, punctuation and whitespace: codepoints 32-126 and 9-13). -/
def isPrintable (n : Nat) : Bool :=
  (32 ≤ n && n ≤ 126) || (9 ≤ n && n ≤ 13)

/-- ASCII alphabetic codepoint (`A`-`Z` or `a`-`z`).  `str.isalpha` restricted
to ASCII strings, which is all that reaches it in `clean_sentences` (the
line is ASCII-encoded with `errors="ignore"` before tokenisation). -/
def isAsciiAlpha (n : Nat) : Bool :=
  (65 ≤ n && n ≤ 90) || (97 ≤ n && n ≤ 122)

/-- Lowercase ASCII alphabetic codepoint (`a`-`z`). -/
def isLowerAlpha (n : Nat) : Bool :=
  97 ≤ n && n ≤ 122

/-- Python's `str.lower()` on one codepoint, restricted to ASCII input
(`clean_sentences` lowercases only after the ASCII-encode step). -/
def pyLowerChar (n : Nat) : Nat :=
  if 65 ≤ n && n ≤ 90 then n + 32 else n

/-- Python's `word.isalpha()`: non-empty and every character alphabetic. -/
def pyIsAlpha (w : PyStr) : Bool :=
  !w.isEmpty && w.all isAsciiAlpha

/-- Concatenation of a list of strings (`List.join` specialised to the model). -/
def pyConcat : List PyStr → PyStr
  | [] => []
  | w :: ws => w ++ pyConcat ws

/-- NFD canonical decomposition of one codepoint, as used by
`unicodedata.normalize("NFD", line)`.  NFD is the identity on ASCII; for
non-ASCII codepoints a representative table of Latin-1 letters is given
(base letter followed by a combining mark).  Codepoints outside the table
decompose to themselves; since `clean_sentences` immediately discards every
non-ASCII codepoint (`encode("ascii", "ignore")`), only the ASCII base
letters produced here are ever observable downstream. -/
def nfdChar (n : Nat) : List Nat :=
  if n < 128 then [n]
  else if n = 0xe0 then [97, 0x300]   -- a grave
  else if n = 0xe1 then [97, 0x301]   -- a acute
  else if n = 0xe7 then [99, 0x327]   -- c cedilla
  else if n = 0xe8 then [101, 0x300]  -- e grave
  else if n = 0xe9 then [101, 0x301]  -- e acute
  else if n = 0xf1 then [110, 0x303]  -- n tilde
  else if n = 0xf6 then [111, 0x308]  -- o diaeresis
  else if n = 0xfc then [117, 0x308]  -- u diaeresis
  else if n = 0xc9 then [69, 0x301]   -- E acute
  else [n]

/-- Line 58 of the source:
`normalize("NFD", line).encode("ascii", "ignore").decode("UTF-8")` —
NFD-decompose every codepoint, then drop everything non-ASCII. -/
def asciiNormalize (line : PyStr) : PyStr :=
  (pyConcat (line.map nfdChar)).filter (fun n => decide (n < 128))

/-- Python's `str.split()` with no separator: split on runs of whitespace,
discarding empty tokens. -/
def pySplit : PyStr → List PyStr
  | [] => []
  | c :: cs =>
    if isPySpace c then pySplit cs
    else
      match cs with
      | [] => [[c]]
      | d :: _ =>
        if isPySpace d then [c] :: pySplit cs
        else
          match pySplit cs with
          | t :: ts => (c :: t) :: ts
          | [] => [[c]]

/-- Python's `" ".join(words)`. -/
def joinSpace : List PyStr → PyStr
  | [] => []
  | [w] => w
  | w :: ws => w ++ 32 :: joinSpace ws

/-- Python's `str.strip()`: remove leading and trailing whitespace. -/
def pyStrip (s : PyStr) : PyStr :=
  ((s.dropWhile isPySpace).reverse.dropWhile isPySpace).reverse

/-- Python's `str.split("\n")`: split at every newline, keeping empty chunks;
the result is never the empty list (splitting the empty string gives one
empty chunk). -/
def splitNewline : PyStr → List PyStr
  | [] => [[]]
  | c :: cs =>
    if c = 10 then [] :: splitNewline cs
    else
      match splitNewline cs with
      | t :: ts => (c :: t) :: ts
      | [] => [[c]]

/-- `get_sentences_from_document`, applied to the file's contents
(`raw_text`): `raw_text.strip().split("\n")`. -/
def get_sentences_from_document (raw_text : PyStr) : List PyStr :=
  splitNewline (pyStrip raw_text)

/-- One `Counter` increment: bump the count of `w`, appending a fresh entry
with count 1 when `w` is new (Python dicts keep insertion order). -/
def counterAdd : List (PyStr × Nat) → PyStr → List (PyStr × Nat)
  | [], w => [(w, 1)]
  | (x, c) :: rest, w =>
    if x = w then (x, c + 1) :: rest else (x, c) :: counterAdd rest w

/-- `get_vocabulary_count`: fold `Counter.update(sentence.split())` over the
sentences, starting from the empty counter. -/
def get_vocabulary_count (sentences : List PyStr) : List (PyStr × Nat) :=
  sentences.foldl (fun voc line => (pySplit line).foldl counterAdd voc) []

/-- `reduce_vocab(vocab, threshold)` with an integer threshold:
`set(word for word, cnt in vocab.items() if cnt >= threshold)`.  The set is
modelled as the list of kept keys (counter keys are distinct by
construction). -/
def reduce_vocab (vocab : List (PyStr × Nat)) (threshold : Int) : List PyStr :=
  (vocab.filter (fun p => decide (threshold ≤ (p.2 : Int)))).map Prod.fst

/-- The placeholder token `"uup"`. -/
def uup : PyStr := [117, 117, 112]

/-- The literal token `"s"`. -/
def sTok : PyStr := [115]

/-- The body of `update_dataset`'s loop for one line: substitute every
out-of-vocabulary token with `"uup"`, then delete every token equal to
`"s"`, then rejoin with single spaces. -/
def update_line (vocab : List PyStr) (line : PyStr) : PyStr :=
  let new_words := (pySplit line).map (fun t => if t ∈ vocab then t else uup)
  let kept := new_words.filter (fun w => decide (w ≠ sTok))
  joinSpace kept

/-- `update_dataset(sentences, vocab)`. -/
def update_dataset (sentences : List PyStr) (vocab : List PyStr) : List PyStr :=
  sentences.map (update_line vocab)

/-- The token list built by `clean_sentences` for one line (source lines
58-63): ASCII-normalize, tokenize, lowercase, strip punctuation, strip
non-printables, drop non-alphabetic tokens. -/
def cleanTokens (line : PyStr) : List PyStr :=
  let ascii := asciiNormalize line
  let words := pySplit ascii
  let lowercase_words := words.map (fun w => w.map pyLowerChar)
  let punctuationless_words := lowercase_words.map (fun w => w.filter (fun c => !isPunct c))
  let printable_words := punctuationless_words.map (fun w => w.filter isPrintable)
  printable_words.filter pyIsAlpha

/-- The cleaning transformation of `clean_sentences` for one line
(its loop body): the surviving tokens rejoined with single spaces. -/
def clean_line (line : PyStr) : PyStr :=
  joinSpace (cleanTokens line)

/-- `clean_sentences(lines)`. -/
def clean_sentences (lines : List PyStr) : List PyStr :=
  lines.map clean_line

/-- The value `argparse` hands to `preprocess_file` as the threshold: the
`int` 4 when the flag is absent (the default), or the raw `str` text when
`-vrt` is passed on the command line (no `type=` converter is configured). -/
inductive PyThreshold where
  | int : Int → PyThreshold
  | str : PyStr → PyThreshold
deriving DecidableEq

/-- An output artifact written by `pickle.dump` in `preprocess_file`. -/
inductive Artifact where
  | cleanedPkl : List PyStr → Artifact
  | reducedPkl : List PyStr → Artifact
deriving DecidableEq

/-- Python's `cnt >= threshold` for an `int` count: comparing an `int`
with a `str` raises `TypeError`. -/
def pyGeCount (cnt : Nat) : PyThreshold → Except Unit Bool
  | .int t => .ok (decide (t ≤ (cnt : Int)))
  | .str _ => .error ()

/-- `reduce_vocab` as executed dynamically: the comprehension evaluates
`cnt >= threshold` item by item and propagates the first `TypeError`. -/
def reduce_vocab_dyn : List (PyStr × Nat) → PyThreshold → Except Unit (List PyStr)
  | [], _ => .ok []
  | (w, c) :: rest, t => do
    let b ← pyGeCount c t
    let r ← reduce_vocab_dyn rest t
    pure (if b then w :: r else r)

/-- `preprocess_file`, with the input file's contents in place of its path
and the written pickle artifacts collected in order in place of the
filesystem: load, clean, dump the cleaned corpus, count the vocabulary,
reduce it (which can raise on a `str` threshold), rewrite, dump the
reduced corpus. -/
def preprocess_file (contents : PyStr) (threshold : PyThreshold) :
    List Artifact × Except Unit Unit :=
  let raw_sentences := get_sentences_from_document contents
  let cleaned_sentences := clean_sentences raw_sentences
  let written := [Artifact.cleanedPkl cleaned_sentences]
  let vocab := get_vocabulary_count cleaned_sentences
  match reduce_vocab_dyn vocab threshold with
  | .error e => (written, .error e)
  | .ok reduced_vocab =>
    (written ++ [Artifact.reducedPkl (update_dataset cleaned_sentences reduced_vocab)], .ok ())

/-! ### Structural lemmas about tokenisation (`pySplit`) and joining -/

theorem pySplit_cons_space (c : Nat) (cs : PyStr) (h : isPySpace c = true) :
    pySplit (c :: cs) = pySplit cs := by
  conv_lhs => rw [pySplit.eq_def]
  simp [h]

theorem pySplit_cons_nonspace_space (c d : Nat) (cs : PyStr)
    (hc : isPySpace c = false) (hd : isPySpace d = true) :
    pySplit (c :: d :: cs) = [c] :: pySplit (d :: cs) := by
  conv_lhs => rw [pySplit.eq_def]
  simp [hc, hd]

theorem pySplit_cons_nonspace_nonspace (c d : Nat) (cs : PyStr) (t : PyStr) (ts : List PyStr)
    (hc : isPySpace c = false) (hd : isPySpace d = false)
    (h : pySplit (d :: cs) = t :: ts) :
    pySplit (c :: d :: cs) = (c :: t) :: ts := by
  conv_lhs => rw [pySplit.eq_def]
  simp [hc, hd, h]

theorem pySplit_ne_nil (cs : PyStr) :
    ∀ c : Nat, isPySpace c = false → pySplit (c :: cs) ≠ [] := by
  induction cs with
  | nil =>
    intro c hc
    conv_lhs => rw [pySplit.eq_def]
    simp [hc]
  | cons d cs' ih =>
    intro c hc
    cases hd : isPySpace d
    · obtain ⟨t, ts, h⟩ : ∃ t ts, pySplit (d :: cs') = t :: ts := by
        cases h : pySplit (d :: cs') with
        | nil => exact absurd h (ih d hd)
        | cons t ts => exact ⟨t, ts, rfl⟩
      rw [pySplit_cons_nonspace_nonspace c d cs' t ts hc hd h]
      simp
    · rw [pySplit_cons_nonspace_space c d cs' hc hd]
      simp

theorem pySplit_tokens_wf (l : PyStr) :
    ∀ t ∈ pySplit l, t ≠ [] ∧ ∀ c ∈ t, isPySpace c = false := by
  induction l with
  | nil => simp [pySplit]
  | cons c cs ih =>
    cases hc : isPySpace c
    · cases cs with
      | nil =>
        intro t ht
        simp [pySplit, hc] at ht
        subst ht
        exact ⟨by simp, by simp [hc]⟩
      | cons d cs' =>
        cases hd : isPySpace d
        · obtain ⟨t0, ts, hsplit⟩ : ∃ t0 ts, pySplit (d :: cs') = t0 :: ts := by
            cases h : pySplit (d :: cs') with
            | nil => exact absurd h (pySplit_ne_nil cs' d hd)
            | cons t0 ts => exact ⟨t0, ts, rfl⟩
          rw [pySplit_cons_nonspace_nonspace c d cs' t0 ts hc hd hsplit]
          intro t ht
          rcases List.mem_cons.mp ht with h1 | h1
          · subst h1
            obtain ⟨hne0, hns0⟩ := ih t0 (hsplit ▸ List.mem_cons_self t0 ts)
            refine ⟨by simp, ?_⟩
            intro x hx
            rcases List.mem_cons.mp hx with h2 | h2
            · subst h2; exact hc
            · exact hns0 x h2
          · exact ih t (hsplit ▸ List.mem_cons_of_mem t0 h1)
        · rw [pySplit_cons_nonspace_space c d cs' hc hd]
          intro t ht
          rcases List.mem_cons.mp ht with h1 | h1
          · subst h1
            refine ⟨by simp, ?_⟩
            intro x hx
            simp at hx
            subst hx
            exact hc
          · exact ih t h1
    · rw [pySplit_cons_space c cs hc]
      exact ih

theorem pySplit_single_word (w : PyStr) (hne : w ≠ [])
    (hns : ∀ c ∈ w, isPySpace c = false) : pySplit w = [w] := by
  induction w with
  | nil => exact absurd rfl hne
  | cons c cs ih =>
    have hc : isPySpace c = false := hns c (List.mem_cons_self c cs)
    cases cs with
    | nil => simp [pySplit, hc]
    | cons d cs' =>
      have hd : isPySpace d = false := hns d (by simp)
      have hrec : pySplit (d :: cs') = [d :: cs'] := by
        refine ih (by simp) ?_
        intro x hx
        exact hns x (List.mem_cons_of_mem c hx)
      exact pySplit_cons_nonspace_nonspace c d cs' (d :: cs') [] hc hd hrec

theorem pySplit_word_append_space (w t : PyStr) (hne : w ≠ [])
    (hns : ∀ c ∈ w, isPySpace c = false) :
    pySplit (w ++ 32 :: t) = w :: pySplit t := by
  induction w with
  | nil => exact absurd rfl hne
  | cons c cs ih =>
    have hc : isPySpace c = false := hns c (List.mem_cons_self c cs)
    cases cs with
    | nil =>
      have h32 : isPySpace 32 = true := by decide
      rw [List.cons_append, List.nil_append,
        pySplit_cons_nonspace_space c 32 t hc h32, pySplit_cons_space 32 t h32]
    | cons d cs' =>
      have hd : isPySpace d = false := hns d (by simp)
      have hrec : pySplit ((d :: cs') ++ 32 :: t) = (d :: cs') :: pySplit t := by
        refine ih (by simp) ?_
        intro x hx
        exact hns x (List.mem_cons_of_mem c hx)
      rw [List.cons_append]
      exact pySplit_cons_nonspace_nonspace c d (cs' ++ 32 :: t) (d :: cs') (pySplit t) hc hd
        (by simpa using hrec)

theorem pySplit_joinSpace (ws : List PyStr)
    (h : ∀ w ∈ ws, w ≠ [] ∧ ∀ c ∈ w, isPySpace c = false) :
    pySplit (joinSpace ws) = ws := by
  induction ws with
  | nil => simp [joinSpace, pySplit]
  | cons w ws ih =>
    obtain ⟨hne, hns⟩ := h w (List.mem_cons_self w ws)
    cases ws with
    | nil =>
      show pySplit (joinSpace [w]) = [w]
      rw [show joinSpace [w] = w from rfl]
      exact pySplit_single_word w hne hns
    | cons w2 ws' =>
      have hjoin : joinSpace (w :: w2 :: ws') = w ++ 32 :: joinSpace (w2 :: ws') := by
        simp [joinSpace]
      rw [hjoin, pySplit_word_append_space w (joinSpace (w2 :: ws')) hne hns]
      have := ih (fun x hx => h x (List.mem_cons_of_mem w hx))
      rw [this]

theorem mem_joinSpace (ws : List PyStr) (c : Nat) (h : c ∈ joinSpace ws) :
    (∃ w ∈ ws, c ∈ w) ∨ c = 32 := by
  induction ws with
  | nil => simp [joinSpace] at h
  | cons w ws ih =>
    cases ws with
    | nil =>
      left
      exact ⟨w, by simp, by simpa [joinSpace] using h⟩
    | cons w2 ws' =>
      have hjoin : joinSpace (w :: w2 :: ws') = w ++ 32 :: joinSpace (w2 :: ws') := by
        simp [joinSpace]
      rw [hjoin] at h
      rcases List.mem_append.mp h with h1 | h1
      · exact Or.inl ⟨w, by simp, h1⟩
      · rcases List.mem_cons.mp h1 with h2 | h2
        · exact Or.inr h2
        · rcases ih h2 with ⟨x, hx, hcx⟩ | h3
          · exact Or.inl ⟨x, List.mem_cons_of_mem w hx, hcx⟩
          · exact Or.inr h3

/-! ### Generic pointwise helpers for maps and filters -/

theorem list_map_id_of {α : Type} (f : α → α) (l : List α) (h : ∀ a ∈ l, f a = a) :
    l.map f = l := by
  induction l with
  | nil => rfl
  | cons a l ih =>
    simp only [List.map_cons]
    rw [h a (List.mem_cons_self a l), ih (fun x hx => h x (List.mem_cons_of_mem a hx))]

theorem list_filter_id_of {α : Type} (p : α → Bool) (l : List α) (h : ∀ a ∈ l, p a = true) :
    l.filter p = l := by
  induction l with
  | nil => rfl
  | cons a l ih =>
    rw [List.filter_cons_of_pos (h a (List.mem_cons_self a l)),
      ih (fun x hx => h x (List.mem_cons_of_mem a hx))]

theorem list_filter_map_swap {α : Type} (f : α → α) (p : α → Bool) (l : List α) :
    (l.map f).filter p = (l.filter (fun a => p (f a))).map f := by
  induction l with
  | nil => rfl
  | cons a l ih =>
    cases h : p (f a)
    · simp [List.filter_cons, h, ih]
    · simp [List.filter_cons, h, ih]

theorem list_filter_congr_of {α : Type} (p q : α → Bool) (l : List α)
    (h : ∀ a ∈ l, p a = q a) : l.filter p = l.filter q := by
  induction l with
  | nil => rfl
  | cons a l ih =>
    have ha := h a (List.mem_cons_self a l)
    have htail := ih (fun x hx => h x (List.mem_cons_of_mem a hx))
    cases hq : q a
    · rw [List.filter_cons_of_neg (by simp [ha, hq]), List.filter_cons_of_neg (by simp [hq]),
        htail]
    · rw [List.filter_cons_of_pos (by simp [ha, hq]), List.filter_cons_of_pos (by simp [hq]),
        htail]

/-! ### Character-class lemmas -/

theorem pyLowerChar_lower (n : Nat) (h : isAsciiAlpha (pyLowerChar n) = true) :
    isLowerAlpha (pyLowerChar n) = true := by
  simp only [isAsciiAlpha, isLowerAlpha, pyLowerChar] at h ⊢
  by_cases hc : (65 ≤ n && n ≤ 90) = true
  · simp only [if_pos hc] at h ⊢
    simp at hc ⊢
    omega
  · simp only [if_neg hc] at h ⊢
    simp at hc h ⊢
    omega

theorem lower_alpha_nonspace (c : Nat) (h : isLowerAlpha c = true) : isPySpace c = false := by
  simp [isLowerAlpha] at h
  simp [isPySpace]
  omega

theorem lower_alpha_lt128 (c : Nat) (h : isLowerAlpha c = true) : c < 128 := by
  simp [isLowerAlpha] at h
  omega

theorem lower_alpha_not_punct (c : Nat) (h : isLowerAlpha c = true) : isPunct c = false := by
  simp [isLowerAlpha] at h
  simp [isPunct]
  omega

theorem lower_alpha_printable (c : Nat) (h : isLowerAlpha c = true) : isPrintable c = true := by
  simp [isLowerAlpha] at h
  simp [isPrintable]
  omega

theorem lower_alpha_alpha (c : Nat) (h : isLowerAlpha c = true) : isAsciiAlpha c = true := by
  simp [isLowerAlpha] at h
  simp [isAsciiAlpha]
  omega

theorem pyLowerChar_noop (c : Nat) (h : isLowerAlpha c = true) : pyLowerChar c = c := by
  simp [isLowerAlpha] at h
  have hcond : (65 ≤ c && c ≤ 90) = false := by
    simp
    omega
  simp [pyLowerChar, hcond]

/-! ### The cleaner's tokens are non-empty lowercase ASCII alphabetic -/

theorem cleanTokens_wf (line : PyStr) :
    ∀ t ∈ cleanTokens line, t ≠ [] ∧ ∀ c ∈ t, isLowerAlpha c = true := by
  intro t ht
  simp only [cleanTokens] at ht
  obtain ⟨htmem, halpha⟩ := List.mem_filter.mp ht
  simp only [pyIsAlpha, Bool.and_eq_true, Bool.not_eq_true'] at halpha
  obtain ⟨hne, hall⟩ := halpha
  constructor
  · cases t with
    | nil => simp at hne
    | cons c cs => simp
  · obtain ⟨w2, hw2, rfl⟩ := List.mem_map.mp htmem
    obtain ⟨w1, hw1, rfl⟩ := List.mem_map.mp hw2
    obtain ⟨w0, hw0, rfl⟩ := List.mem_map.mp hw1
    intro c hc
    have hmem1 : c ∈ (w0.map pyLowerChar).filter (fun x => !isPunct x) :=
      List.mem_of_mem_filter hc
    have hmem2 : c ∈ w0.map pyLowerChar := List.mem_of_mem_filter hmem1
    obtain ⟨c0, _, rfl⟩ := List.mem_map.mp hmem2
    exact pyLowerChar_lower c0 (List.all_eq_true.mp hall _ hc)

theorem asciiNormalize_of_ascii : ∀ s : PyStr, (∀ c ∈ s, c < 128) → asciiNormalize s = s := by
  intro s
  induction s with
  | nil => intro _; rfl
  | cons c cs ih =>
    intro h
    have hc : c < 128 := h c (List.mem_cons_self c cs)
    have htail : asciiNormalize cs = cs := ih (fun x hx => h x (List.mem_cons_of_mem c hx))
    unfold asciiNormalize at htail ⊢
    simp only [List.map_cons]
    rw [show nfdChar c = [c] from by simp [nfdChar, hc]]
    simp only [pyConcat, List.singleton_append, List.filter_cons]
    rw [if_pos (by simp [hc])]
    rw [htail]

theorem pySplit_clean_line (line : PyStr) : pySplit (clean_line line) = cleanTokens line := by
  unfold clean_line
  apply pySplit_joinSpace
  intro w hw
  obtain ⟨hne, hlow⟩ := cleanTokens_wf line w hw
  exact ⟨hne, fun c hc => lower_alpha_nonspace c (hlow c hc)⟩

theorem cleanTokens_of_clean (ws : List PyStr)
    (h : ∀ w ∈ ws, w ≠ [] ∧ ∀ c ∈ w, isLowerAlpha c = true) :
    cleanTokens (joinSpace ws) = ws := by
  have hchars : ∀ c ∈ joinSpace ws, c < 128 := by
    intro c hc
    rcases mem_joinSpace ws c hc with ⟨w, hw, hcw⟩ | h32
    · exact lower_alpha_lt128 c ((h w hw).2 c hcw)
    · omega
  simp only [cleanTokens]
  rw [asciiNormalize_of_ascii _ hchars]
  rw [pySplit_joinSpace ws
    (fun w hw => ⟨(h w hw).1, fun c hc => lower_alpha_nonspace c ((h w hw).2 c hc)⟩)]
  rw [list_map_id_of _ ws
    (fun w hw => list_map_id_of pyLowerChar w
      (fun c hc => pyLowerChar_noop c ((h w hw).2 c hc)))]
  rw [list_map_id_of _ ws
    (fun w hw => list_filter_id_of _ w
      (fun c hc => by rw [lower_alpha_not_punct c ((h w hw).2 c hc)]; rfl))]
  rw [list_map_id_of _ ws
    (fun w hw => list_filter_id_of isPrintable w
      (fun c hc => lower_alpha_printable c ((h w hw).2 c hc)))]
  refine list_filter_id_of pyIsAlpha ws (fun w hw => ?_)
  obtain ⟨hne, hlow⟩ := h w hw
  simp only [pyIsAlpha, Bool.and_eq_true, Bool.not_eq_true']
  constructor
  · cases w with
    | nil => exact absurd rfl hne
    | cons c cs => rfl
  · exact List.all_eq_true.mpr (fun c hc => lower_alpha_alpha c (hlow c hc))

/-! ### The rewriter's tokens -/

theorem update_line_tokens (vocab : List PyStr) (line : PyStr) :
    pySplit (update_line vocab line) =
      ((pySplit line).map (fun t => if t ∈ vocab then t else uup)).filter
        (fun w => decide (w ≠ sTok)) := by
  simp only [update_line]
  apply pySplit_joinSpace
  intro w hw
  have hw' := List.mem_of_mem_filter hw
  obtain ⟨t0, ht0, rfl⟩ := List.mem_map.mp hw'
  by_cases hv : t0 ∈ vocab
  · simp only [if_pos hv]
    exact pySplit_tokens_wf line t0 ht0
  · simp only [if_neg hv]
    exact ⟨by decide, by decide⟩

/-! ### Counter lemmas for the vocabulary builder -/

theorem counterAdd_keys (voc : List (PyStr × Nat)) (w x : PyStr) :
    x ∈ (counterAdd voc w).map Prod.fst ↔ x ∈ voc.map Prod.fst ∨ x = w := by
  induction voc with
  | nil => simp [counterAdd]
  | cons p voc ih =>
    obtain ⟨y, c⟩ := p
    by_cases hyw : y = w
    · subst hyw
      rw [show counterAdd ((y, c) :: voc) y = (y, c + 1) :: voc from by simp [counterAdd]]
      simp only [List.map_cons, List.mem_cons]
      tauto
    · rw [show counterAdd ((y, c) :: voc) w = (y, c) :: counterAdd voc w from by
        simp [counterAdd, hyw]]
      simp only [List.map_cons, List.mem_cons, ih]
      tauto

theorem counterAdd_pos (voc : List (PyStr × Nat)) (w : PyStr)
    (h : ∀ p ∈ voc, 1 ≤ p.2) : ∀ p ∈ counterAdd voc w, 1 ≤ p.2 := by
  induction voc with
  | nil =>
    intro p hp
    simp [counterAdd] at hp
    subst hp
    simp
  | cons q voc ih =>
    obtain ⟨y, c⟩ := q
    intro p hp
    by_cases hyw : y = w
    · subst hyw
      rw [show counterAdd ((y, c) :: voc) y = (y, c + 1) :: voc from by simp [counterAdd]] at hp
      rcases List.mem_cons.mp hp with rfl | hp
      · simp
      · exact h p (List.mem_cons_of_mem _ hp)
    · rw [show counterAdd ((y, c) :: voc) w = (y, c) :: counterAdd voc w from by
        simp [counterAdd, hyw]] at hp
      rcases List.mem_cons.mp hp with rfl | hp
      · exact h (y, c) (List.mem_cons_self _ _)
      · exact ih (fun q hq => h q (List.mem_cons_of_mem _ hq)) p hp

theorem counterFold_keys (ws : List PyStr) :
    ∀ (voc : List (PyStr × Nat)) (x : PyStr),
      x ∈ (ws.foldl counterAdd voc).map Prod.fst ↔ x ∈ voc.map Prod.fst ∨ x ∈ ws := by
  induction ws with
  | nil =>
    intro voc x
    simp
  | cons w ws ih =>
    intro voc x
    rw [List.foldl_cons, ih (counterAdd voc w) x, counterAdd_keys]
    simp only [List.mem_cons]
    tauto

theorem counterFold_pos (ws : List PyStr) :
    ∀ voc : List (PyStr × Nat), (∀ p ∈ voc, 1 ≤ p.2) →
      ∀ p ∈ ws.foldl counterAdd voc, 1 ≤ p.2 := by
  induction ws with
  | nil =>
    intro voc h
    simpa using h
  | cons w ws ih =>
    intro voc h
    rw [List.foldl_cons]
    exact ih (counterAdd voc w) (counterAdd_pos voc w h)

theorem vocab_fold_keys (sentences : List PyStr) :
    ∀ (voc : List (PyStr × Nat)) (x : PyStr),
      x ∈ (sentences.foldl (fun voc line => (pySplit line).foldl counterAdd voc) voc).map
          Prod.fst ↔
        x ∈ voc.map Prod.fst ∨ ∃ line, line ∈ sentences ∧ x ∈ pySplit line := by
  induction sentences with
  | nil =>
    intro voc x
    simp
  | cons l ls ih =>
    intro voc x
    rw [List.foldl_cons, ih, counterFold_keys]
    constructor
    · rintro ((h | h) | ⟨line, hline, hx⟩)
      · exact Or.inl h
      · exact Or.inr ⟨l, List.mem_cons_self l ls, h⟩
      · exact Or.inr ⟨line, List.mem_cons_of_mem l hline, hx⟩
    · rintro (h | ⟨line, hline, hx⟩)
      · exact Or.inl (Or.inl h)
      · rcases List.mem_cons.mp hline with rfl | hmem
        · exact Or.inl (Or.inr hx)
        · exact Or.inr ⟨line, hmem, hx⟩

theorem vocab_fold_pos (sentences : List PyStr) :
    ∀ voc : List (PyStr × Nat), (∀ p ∈ voc, 1 ≤ p.2) →
      ∀ p ∈ sentences.foldl (fun voc line => (pySplit line).foldl counterAdd voc) voc,
        1 ≤ p.2 := by
  induction sentences with
  | nil =>
    intro voc h
    simpa using h
  | cons l ls ih =>
    intro voc h
    rw [List.foldl_cons]
    exact ih _ (counterFold_pos (pySplit l) voc h)

/-! ### Loader lemmas -/

theorem splitNewline_ne_nil (s : PyStr) : splitNewline s ≠ [] := by
  cases s with
  | nil => simp [splitNewline]
  | cons c cs =>
    by_cases hc : c = 10
    · simp [splitNewline, hc]
    · cases h : splitNewline cs <;> simp [splitNewline, hc, h]

theorem pyStrip_all_space (s : PyStr) (h : s.all isPySpace = true) : pyStrip s = [] := by
  have h1 : s.dropWhile isPySpace = [] := by
    induction s with
    | nil => rfl
    | cons c cs ih =>
      have hc : isPySpace c = true := List.all_eq_true.mp h c (List.mem_cons_self c cs)
      rw [List.dropWhile_cons_of_pos hc]
      exact ih (List.all_eq_true.mpr
        (fun x hx => List.all_eq_true.mp h x (List.mem_cons_of_mem c hx)))
  simp [pyStrip, h1]

/-! ### Claims -/

/-- Claim C1: for every input file and every vocabulary, the Cleaned Corpus
produced by `clean_sentences` and the Reduced Corpus produced by
`update_dataset` each have exactly as many lines as the Raw Corpus returned
by `get_sentences_from_document`; an empty line becomes an empty string
(under both transformations) and is never dropped. -/
theorem corpus_length_invariant (contents : PyStr) (vocab : List PyStr) :
    (clean_sentences (get_sentences_from_document contents)).length
      = (get_sentences_from_document contents).length
  ∧ (update_dataset (clean_sentences (get_sentences_from_document contents)) vocab).length
      = (get_sentences_from_document contents).length
  ∧ clean_line [] = [] ∧ update_line vocab [] = [] := by
  refine ⟨?_, ?_, rfl, rfl⟩
  · simp [clean_sentences]
  · simp [update_dataset, clean_sentences]

/-- Claim C2 (counterexample): for the cleaned line `"the s nice"` and the
reduced vocabulary containing the, is, nice, `update_dataset` does NOT
produce `"the nice"` — the out-of-vocabulary token `"s"` is substituted
with the placeholder, not dropped. -/
theorem update_dataset_s_not_dropped_cex :
    update_dataset [pyStr "the s nice"] [pyStr "the", pyStr "is", pyStr "nice"]
      ≠ [pyStr "the nice"] := by decide

/-- Claim C2 (amended): for the cleaned line `"the s nice"` and reduced
vocabulary containing the, is, nice, `update_dataset` produces
`"the uup nice"`: since `"s"` is not a vocabulary member it is substituted
with the placeholder `"uup"` and kept.  The final deletion pass removes
only tokens that still equal `"s"` after substitution, so `"s"` is dropped
exactly when it is a member of the vocabulary: with vocabulary
the, is, nice, s, the output is `"the nice"`. -/
theorem update_dataset_s_substitution :
    update_dataset [pyStr "the s nice"] [pyStr "the", pyStr "is", pyStr "nice"]
        = [pyStr "the uup nice"]
  ∧ update_dataset [pyStr "the s nice"] [pyStr "the", pyStr "is", pyStr "nice", pyStr "s"]
        = [pyStr "the nice"] := by decide

/-- Claim C3: for every cleaned corpus and every reduced vocabulary, every
whitespace-delimited token in every line of the Reduced Corpus returned by
`update_dataset` is either a member of the reduced vocabulary or equal to
the literal `"uup"`, and no token in any output line equals the literal
`"s"`. -/
theorem reduced_tokens_vocab_or_placeholder (sentences vocab : List PyStr) (line t : PyStr)
    (h1 : line ∈ update_dataset sentences vocab) (h2 : t ∈ pySplit line) :
    (t ∈ vocab ∨ t = uup) ∧ t ≠ sTok := by
  obtain ⟨l0, _, rfl⟩ := List.mem_map.mp h1
  rw [update_line_tokens] at h2
  obtain ⟨hmem, hs⟩ := List.mem_filter.mp h2
  refine ⟨?_, by simpa using hs⟩
  obtain ⟨t0, ht0, heq⟩ := List.mem_map.mp hmem
  by_cases hv : t0 ∈ vocab
  · rw [if_pos hv] at heq
    subst heq
    exact Or.inl hv
  · rw [if_neg hv] at heq
    exact Or.inr heq.symm

/-- Witness for claim C3: with cleaned corpus `["x s"]` and empty
vocabulary, the line `"uup uup"` is produced and its token `"uup"`
satisfies the property. -/
theorem reduced_tokens_vocab_or_placeholder_w :
    (uup ∈ ([] : List PyStr) ∨ uup = uup) ∧ uup ≠ sTok :=
  reduced_tokens_vocab_or_placeholder [pyStr "x s"] [] (pyStr "uup uup") uup
    (by decide) (by decide)

/-- Claim C4: contrary to the specification, a vocabulary-reduction
threshold that is not parseable as a number does not make the program
abort before any processing.  With input contents `"a a a a a"` and the
unparseable threshold string `"abc"` (argparse passes every command-line
threshold through as a `str`), the pipeline runs the loader and the
cleaner and writes the cleaned-corpus artifact, and only then fails with a
`TypeError` when `reduce_vocab` compares an `int` count against the `str`
threshold. -/
theorem preprocess_bad_threshold_writes_artifact :
    preprocess_file (pyStr "a a a a a") (.str (pyStr "abc")) =
      ([Artifact.cleanedPkl [pyStr "a a a a a"]], .error ()) := by rfl

/-- Claim C5: every whitespace-delimited token of every line of the Cleaned
Corpus produced by `clean_sentences` is non-empty and consists only of
lowercase ASCII alphabetic characters. -/
theorem cleaned_tokens_lowercase_alpha (lines : List PyStr) (line t : PyStr)
    (h1 : line ∈ clean_sentences lines) (h2 : t ∈ pySplit line) :
    t.isEmpty = false ∧ t.all isLowerAlpha = true := by
  obtain ⟨l0, _, rfl⟩ := List.mem_map.mp h1
  rw [pySplit_clean_line] at h2
  obtain ⟨hne, hlow⟩ := cleanTokens_wf l0 t h2
  refine ⟨?_, List.all_eq_true.mpr hlow⟩
  cases t with
  | nil => exact absurd rfl hne
  | cons c cs => rfl

/-- Witness for claim C5: the token `"hello"` of the cleaned line of
`"Hello, 42 World!"`. -/
theorem cleaned_tokens_lowercase_alpha_w :
    (pyStr "hello").isEmpty = false ∧ (pyStr "hello").all isLowerAlpha = true :=
  cleaned_tokens_lowercase_alpha [pyStr "Hello, 42 World!"] (pyStr "hello world")
    (pyStr "hello") (by decide) (by decide)

/-- Claim C6: the cleaning transformation of `clean_sentences` is
idempotent: cleaning an already-cleaned sentence is a no-op. -/
theorem clean_idempotent (line : PyStr) : clean_line (clean_line line) = clean_line line := by
  unfold clean_line
  rw [cleanTokens_of_clean (cleanTokens line) (cleanTokens_wf line)]

/-- Claim C7: `reduce_vocab` is monotonic in the threshold: for thresholds
`t1 ≤ t2` the set returned for `t2` is a subset of the set returned for
`t1`, and the returned set is always a subset of the mapping's keys. -/
theorem reduce_vocab_monotone (vocab : List (PyStr × Nat)) (t1 t2 : Int) (h : t1 ≤ t2) :
    ((reduce_vocab vocab t2).all (fun w => decide (w ∈ reduce_vocab vocab t1)) = true)
  ∧ ((reduce_vocab vocab t1).all (fun w => decide (w ∈ vocab.map Prod.fst)) = true) := by
  constructor
  · rw [List.all_eq_true]
    intro w hw
    simp only [decide_eq_true_eq]
    simp only [reduce_vocab] at hw ⊢
    obtain ⟨p, hp, rfl⟩ := List.mem_map.mp hw
    obtain ⟨hpv, hpt⟩ := List.mem_filter.mp hp
    refine List.mem_map.mpr ⟨p, List.mem_filter.mpr ⟨hpv, ?_⟩, rfl⟩
    simp only [decide_eq_true_eq] at hpt ⊢
    omega
  · rw [List.all_eq_true]
    intro w hw
    simp only [decide_eq_true_eq]
    simp only [reduce_vocab] at hw
    obtain ⟨p, hp, rfl⟩ := List.mem_map.mp hw
    exact List.mem_map.mpr ⟨p, List.mem_of_mem_filter hp, rfl⟩

/-- Witness for claim C7: the vocabulary count of Scenario 2
(`the` occurs 10 times, `cafe` twice) with thresholds 2 and 4. -/
theorem reduce_vocab_monotone_w :
    ((reduce_vocab [(pyStr "the", 10), (pyStr "cafe", 2)] 4).all
        (fun w => decide (w ∈ reduce_vocab [(pyStr "the", 10), (pyStr "cafe", 2)] 2)) = true)
  ∧ ((reduce_vocab [(pyStr "the", 10), (pyStr "cafe", 2)] 2).all
        (fun w => decide (w ∈ ([(pyStr "the", 10), (pyStr "cafe", 2)].map Prod.fst))) = true) :=
  reduce_vocab_monotone [(pyStr "the", 10), (pyStr "cafe", 2)] 2 4 (by decide)

/-- Claim C8: in `update_dataset`, every token not in the vocabulary —
including `"s"` itself when `"s"` is not a vocabulary member — is replaced
with `"uup"` and kept, and the final deletion pass removes exactly the
tokens that still equal `"s"` after substitution, i.e. the occurrences of
`"s"` that were vocabulary members: tokenising the output line equals
first discarding the vocabulary-member `"s"` occurrences and then
substituting out-of-vocabulary tokens with the placeholder. -/
theorem update_line_substitution_then_filter (vocab : List PyStr) (line : PyStr) :
    pySplit (update_line vocab line) =
      ((pySplit line).filter
        (fun t => !(decide (t = sTok) && decide (t ∈ vocab)))).map
        (fun t => if t ∈ vocab then t else uup) := by
  rw [update_line_tokens, list_filter_map_swap]
  refine congrArg (List.map _) (list_filter_congr_of _ _ _ ?_)
  intro a _
  by_cases hv : a ∈ vocab
  · by_cases hs : a = sTok
    · subst hs
      simp [hv]
    · simp [hv, hs]
  · have huup : uup ≠ sTok := by decide
    simp [hv, huup]

/-- Claim C9: the mapping returned by `get_vocabulary_count` has as keys
exactly the whitespace-delimited tokens occurring in at least one input
line, and every stored count is at least 1. -/
theorem vocabulary_count_keys_and_counts (sentences : List PyStr) (x : PyStr) :
    (x ∈ (get_vocabulary_count sentences).map Prod.fst ↔
      ∃ line, line ∈ sentences ∧ x ∈ pySplit line)
  ∧ (get_vocabulary_count sentences).all (fun p => decide (1 ≤ p.2)) = true := by
  constructor
  · simp only [get_vocabulary_count]
    rw [vocab_fold_keys]
    simp
  · rw [List.all_eq_true]
    intro p hp
    simp only [decide_eq_true_eq]
    exact vocab_fold_pos sentences [] (by simp) p hp

/-- Claim C10: `get_sentences_from_document` always returns a non-empty
list, and on contents that are empty or all-whitespace it returns exactly
one element, the empty string. -/
theorem sentences_from_document_nonempty (contents : PyStr) :
    get_sentences_from_document contents ≠ []
  ∧ (contents.all isPySpace = true → get_sentences_from_document contents = [[]]) := by
  constructor
  · exact splitNewline_ne_nil _
  · intro h
    unfold get_sentences_from_document
    rw [pyStrip_all_space contents h]
    rfl

/-- Witness for claim C10: whitespace-only contents yield the singleton
list holding the empty string. -/
theorem sentences_from_document_nonempty_w :
    get_sentences_from_document (pyStr " \t\n ") = [[]] :=
  (sentences_from_document_nonempty (pyStr " \t\n ")).2 (by decide)
